import Mathlib

/-!
Verification of the dependency-resolution core of the `gazelle` Python
extension (file `gazelle/resolve.go`).

The Go source is shallowly embedded below. Conventions used throughout:

- Go strings are Lean `String`; where the Go standard library performs
  byte-level operations our inputs are plain ASCII relative paths, so
  character-level operations coincide.
- Go maps are embedded as association structures; map iteration order,
  which Go deliberately leaves unspecified, is made explicit wherever the
  source iterates over a map (see `pathsO` and its reorder parameter).
- Filesystem queries (`isBazelPackage`, the expansion of a glob pattern,
  the standard-library membership check) are external collaborators of
  this file and are passed in as function parameters.
- Collaborator functions from other packages (`label.Label` operations,
  `resolve.FindResult`) are modelled from the specification of their
  interface; each such definition carries a comment saying so.
-/

/-! ## String helpers mirroring the Go standard library calls in resolve.go -/

/-- Character-level splitting, used to embed `strings.Split(s, "/")`. -/
def splitCharList (c : Char) : List Char → List (List Char)
  | [] => [[]]
  | x :: xs =>
    match splitCharList c xs with
    | [] => [[]]
    | h :: t => if x = c then [] :: h :: t else (x :: h) :: t

/-- `strings.Split(s, "/")` for one-character separators. -/
def splitSlash (s : String) : List String :=
  (splitCharList '/' s.data).map (fun l => String.mk l)

/-- Join a list of strings with a separator, as `strings.Join` does. -/
def joinWith (sep : String) : List String → String
  | [] => ""
  | [x] => x
  | x :: xs => x ++ sep ++ joinWith sep xs

/-- `strings.HasPrefix(s, pre)` (argument order as in Go). -/
def goHasPre (s pre : String) : Bool :=
  pre.data.isPrefixOf s.data

/-- `strings.TrimSuffix(s, suffix)`. -/
def trimSuffix (s suf : String) : String :=
  if suf.data.isSuffixOf s.data then String.mk (s.data.take (s.data.length - suf.data.length))
  else s

/-- Character-level drop, used to embed suffix extraction after a path separator. -/
def strDrop (s : String) (n : Nat) : String :=
  String.mk (s.data.drop n)

/-- `strings.ReplaceAll` for one-character patterns and replacements
(the only shape used by resolve.go: `/` to `.` and `-` to `_`). -/
def replaceChar (c d : Char) (s : String) : String :=
  String.mk (s.data.map (fun x => if x = c then d else x))

/-- `strings.ToLower` (the distribution identifiers involved are ASCII). -/
def strToLower (s : String) : String :=
  String.mk (s.data.map Char.toLower)

/-- Scanner for `filepath.Ext`: walk the path backwards accumulating the
suffix; stop with the extension at the first dot, or with the empty string
at a path separator or at the start. -/
def extScan (acc : List Char) : List Char → String
  | [] => ""
  | c :: rest =>
    if c = '/' then ""
    else if c = '.' then String.mk ('.' :: acc)
    else extScan (c :: acc) rest

/-- `filepath.Ext(path)`: the suffix beginning at the final dot in the
final slash-separated element, or empty when there is no dot. -/
def filepathExt (s : String) : String :=
  extScan [] s.data.reverse

/-- `path.Clean` restricted to the relative, dotdot-free paths this
program builds: drop empty and `.` components; the empty path cleans
to `.`. -/
def pathClean (s : String) : String :=
  let comps := (splitSlash s).filter (fun c => c ≠ "" && c ≠ ".")
  if comps.isEmpty then "." else joinWith "/" comps

/-- `path.Join(a, b)` (and `filepath.Join` on slash-separated paths):
concatenate the non-empty elements and clean; all-empty input gives the
empty string. -/
def pathJoin (a b : String) : String :=
  if a = "" && b = "" then "" else pathClean (a ++ "/" ++ b)

/-- `filepath.Dir(path)`: everything before the final separator, cleaned;
`.` when the path has a single element. -/
def filepathDir (s : String) : String :=
  let parts := splitSlash s
  if parts.length ≤ 1 then "." else pathClean (joinWith "/" parts.dropLast)

/-- `filepath.Base(path)`: the last slash-separated element (our inputs
are clean relative file paths; the empty path gives `.`). -/
def filepathBase (s : String) : String :=
  let last := (splitSlash s).reverse.headD ""
  if last = "" then "." else last

/-- `filepath.Rel(base, target)` for the cases this program reaches:
identical paths, an empty or `.` base, and a base that is a proper path
segment of the target. Inputs that would force Go to emit
parent-directory traversal are not produced by the embedded callers. -/
def filepathRel (base target : String) : String :=
  if base = target then "."
  else if base = "" || base = "." then pathClean target
  else if goHasPre target (base ++ "/") then strDrop target (base.length + 1)
  else target

/-! ## BazelPackageTree

The Go type is

```
type BazelPackageTree struct \x7b
    pkg            *string
    branches       map[string]*BazelPackageTree
    isBazelPackage bool
    isFile         bool
\x7d
```

It is embedded first-child/next-sibling: one `PTree.branch` constructor
holds one entry of a `branches` map (its key, the flags of the child node,
the child node branches, and the remaining entries of the same map). The
flags of the root node are never consulted by the Go code, so the root is
represented by its branch list alone. The shared `pkg` pointer only feeds
the `isBazelPackage(dir)` filesystem query, which is embedded as the
predicate `isPkg` on the directory path split into segments relative to
that package. -/
inductive PTree where
  | nil : PTree
  | branch (part : String) (isBazelPackage : Bool) (isFile : Bool)
      (children : PTree) (siblings : PTree) : PTree
deriving DecidableEq

/-- Look a key up in a branch list: `branch, exists := branches[part]`.
Returns the flags and children of the found node. -/
def lookupNode (part : String) : PTree → Option (Bool × Bool × PTree)
  | PTree.nil => none
  | PTree.branch p b f ch sib =>
    if p = part then some (b, f, ch) else lookupNode part sib

/-- Replace the children of the entry with the given key (the embedding of
mutating `branch.branches` in place). -/
def replaceChildren (part : String) (ch2 : PTree) : PTree → PTree
  | PTree.nil => PTree.nil
  | PTree.branch p b f ch sib =>
    if p = part then PTree.branch p b f ch2 sib
    else PTree.branch p b f ch (replaceChildren part ch2 sib)

/-- Add a new entry to a branch list: `branches[part] = branch`. -/
def appendBranch (part : String) (b f : Bool) (ch : PTree) : PTree → PTree
  | PTree.nil => PTree.branch part b f ch PTree.nil
  | PTree.branch p b0 f0 ch0 sib => PTree.branch p b0 f0 ch0 (appendBranch part b f ch sib)

/-- `BazelPackageTree.AddPath(parts)`. Walks the segments, reusing an
existing node when present (its flags are left untouched) and otherwise
creating one: the node of the last segment is a file, and for every other
newly created node the `isBazelPackage(path.Join(pkg, parts[:i+1]))`
filesystem query runs, embedded as `isPkg` applied to the accumulated
segment list `pfx ++ [part]`. -/
def addPath (isPkg : List String → Bool) (pfx : List String) (t : PTree) : List String → PTree
  | [] => t
  | part :: rest =>
    match lookupNode part t with
    | some (_, _, ch) => replaceChildren part (addPath isPkg (pfx ++ [part]) ch rest) t
    | none =>
      let isFile := rest.isEmpty
      let flag := !isFile && isPkg (pfx ++ [part])
      appendBranch part flag isFile (addPath isPkg (pfx ++ [part]) PTree.nil rest) t

/-- `BazelPackageTree.Paths()`, with the branch list traversed in its own
order (one admissible iteration order of the Go map): a branch flagged as
a Bazel package is skipped with its whole subtree, a file contributes its
segment, and every path of the child node is extended with the segment.
Paths are returned as segment lists; `path.Join(part, branchPath)` on the
clean single segments involved is exactly `part :: branchPath`. -/
def paths : PTree → List (List String)
  | PTree.nil => []
  | PTree.branch part b f ch sib =>
    (if b then []
     else (if f then [[part]] else []) ++ (paths ch).map (fun p => part :: p)) ++ paths sib

/-- The keys of a branch list, in order. -/
def keysOf : PTree → List String
  | PTree.nil => []
  | PTree.branch p _ _ _ sib => p :: keysOf sib

/-- The entries of a branch list: key, both flags, children. -/
def toEntries : PTree → List (String × Bool × Bool × PTree)
  | PTree.nil => []
  | PTree.branch p b f ch sib => (p, b, f, ch) :: toEntries sib

/-- Height of the tree, bounding the recursion depth of `Paths()`. -/
def depth : PTree → Nat
  | PTree.nil => 0
  | PTree.branch _ _ _ ch sib => max (depth ch + 1) (depth sib)

/-- `Paths()` under an explicit map iteration order: at every node the
branch entries are visited in the order chosen by `reorder` (Go map
iteration yields each entry exactly once in an unspecified order, so an
admissible `reorder` is any function returning a permutation of the
entries). The fuel argument only serves termination and is irrelevant
from `depth t` upwards. -/
def pathsO (reorder : List (String × Bool × Bool × PTree) → List (String × Bool × Bool × PTree)) :
    Nat → PTree → List (List String)
  | 0, _ => []
  | n + 1, t =>
    (reorder (toEntries t)).flatMap (fun e =>
      if e.2.1 then []
      else (if e.2.2.1 then [[e.1]] else []) ++ (pathsO reorder n e.2.2.2).map (fun p => e.1 :: p))

/-- An admissible iteration order returns the same entries, permuted. -/
def ValidReorder (reorder : List (String × Bool × Bool × PTree) → List (String × Bool × Bool × PTree)) : Prop :=
  ∀ l, (reorder l).Perm l

/-- The tree built by `Globber.Glob`: every match of every include pattern
that is not in the exclude set, split into segments and inserted. -/
def buildTree (isPkg : List String → Bool) (ps : List (List String)) : PTree :=
  ps.foldl (fun t parts => addPath isPkg [] t parts) PTree.nil

/-- The include-match list fed into the tree by `Globber.Glob`: matches of
the include patterns (in pattern order, each pattern expanded by the
deterministic filesystem matcher, already made package-relative and
segment-split) minus the exclude set. -/
def globMatches (matcher : String → List (List String)) (includes excludes : List String) :
    List (List String) :=
  let excludeSet := excludes.flatMap matcher
  (includes.flatMap matcher).filter (fun src => !(decide (src ∈ excludeSet)))

/-- The package tree a `Globber.Glob` call builds. -/
def globTree (isPkg : List String → Bool) (matcher : String → List (List String))
    (includes excludes : List String) : PTree :=
  buildTree isPkg (globMatches matcher includes excludes)

/-- The list `Globber.Glob` returns: the tree paths under the map
iteration order of this run, rendered back to slash-joined strings. -/
def globResult (isPkg : List String → Bool) (matcher : String → List (List String))
    (includes excludes : List String)
    (reorder : List (String × Bool × Bool × PTree) → List (String × Bool × Bool × PTree))
    (fuel : Nat) : List String :=
  (pathsO reorder fuel (globTree isPkg matcher includes excludes)).map (joinWith "/")

example : addPath (fun _ => false) [] PTree.nil ["a", "b"] =
    PTree.branch "a" false false (PTree.branch "b" false true PTree.nil PTree.nil) PTree.nil := by
  decide

example : paths (buildTree (fun _ => false) [["a", "b"], ["a"], ["c"]]) =
    [["a", "b"], ["c"]] := by decide

example : paths (buildTree (fun l => decide (l = ["a"])) [["a", "b"], ["c"]]) = [["c"]] := by
  decide

example : paths (buildTree (fun l => decide (l = ["a"])) [["a"], ["a", "b"]]) =
    [["a"], ["a", "b"]] := by decide

example : globResult (fun _ => false) (fun pat => if pat = "*" then [["a"], ["b"]] else [])
    ["*"] [] (fun l => l) 2 = ["a", "b"] := by decide

example : globResult (fun _ => false) (fun pat => if pat = "*" then [["a"], ["b"]] else [])
    ["*"] [] (fun l => l.reverse) 2 = ["b", "a"] := by decide

/-! ## Labels, modules and collaborator interfaces of the Resolver -/

/-- `label.Label` from bazel-gazelle. Modelled from the spec: a fully
qualified build-target address `\x7bRepo, Pkg, Name\x7d` that also supports a
relative form. -/
structure Label where
  repo : String
  pkg : String
  name : String
  relative : Bool
deriving DecidableEq

/-- `label.New(repo, pkg, name)`. -/
def labelNew (repo pkg name : String) : Label :=
  ⟨repo, pkg, name, false⟩

/-- Modelled from the spec: string rendering of a label. A relative label
renders as `:name`; otherwise the repository renders as `@repo` when
non-empty, and the target name is elided when it equals the last package
path segment. -/
def labelString (l : Label) : String :=
  if l.relative then ":" ++ l.name
  else
    let repoPart := if l.repo = "" then "" else "@" ++ l.repo
    if filepathBase l.pkg = l.name then repoPart ++ "//" ++ l.pkg
    else repoPart ++ "//" ++ l.pkg ++ ":" ++ l.name

/-- Modelled from the spec: relative-to normalization of a label, dropping
the repository and package components implied by the given context. -/
def labelRel (l : Label) (repo pkg : String) : Label :=
  if l.relative ∨ l.repo ≠ repo then l
  else if l.pkg = pkg then ⟨"", "", l.name, true⟩
  else ⟨"", l.pkg, l.name, false⟩

/-- `resolve.FindResult` as consumed by resolve.go: one first-party index
match, carrying the label of the matched rule. -/
structure FindResult where
  label : Label
deriving DecidableEq

/-- Modelled from the spec: a match is a self-import when it is the
resolving rule itself. -/
def isSelfImport (fr : FindResult) (frm : Label) : Bool :=
  decide (fr.label = frm)

/-- The `module` record consumed by `Resolver.Resolve`: one import
statement occurrence. -/
structure PyModule where
  name : String
  filepath : String
  lineNumber : Nat
deriving DecidableEq

/-- The configuration fields `Resolver.Resolve` reads: project root,
third-party repository and the validation toggle. The module-name to
distribution mapping and the override directives are passed separately as
lookup functions. -/
structure PyConfig where
  pythonProjectRoot : String
  pipRepository : String
  validateImportStatements : Bool
deriving DecidableEq

/-- `rulesPythonDistributionPackage(distribution)`: lowercase, `-` to `_`,
with the fixed `pypi__` namespace token in front. -/
def rulesPythonDistributionPackage (distribution : String) : String :=
  "pypi__" ++ replaceChar '-' '_' (strToLower distribution)

/-- `targetListFromResults(results)`: comma-joined label strings. -/
def targetListFromResults (results : List FindResult) : String :=
  joinWith ", " (results.map (fun r => labelString r.label))

/-- Insertion into the `treeset` of dependencies (ordered by the string
comparator, duplicates collapse). -/
def treeAdd (dep : String) : List String → List String
  | [] => [dep]
  | d :: rest =>
    if dep < d then dep :: d :: rest
    else if dep = d then d :: rest
    else d :: treeAdd dep rest

/-- What one iteration of the `MODULE_LOOP` in `Resolver.Resolve`
produces: the updated dependency set, whether this module recorded a
fatal error, and, for the ambiguity error, the label list embedded in its
message by `targetListFromResults`. -/
structure ModuleResolution where
  deps : List String
  fatal : Bool
  ambiguousTargets : Option String
deriving DecidableEq

/-- The effect one iteration of the `MODULE_LOOP` has: it reaches the
next module directly (`continue`, falling off the branch, or resolving to
the rule itself), adds exactly one dependency string, or records a fatal
error (for the ambiguity error, together with the label list that
`targetListFromResults` renders into the message). -/
inductive ModuleAction where
  | skip : ModuleAction
  | add (dep : String) : ModuleAction
  | fatalError : ModuleAction
  | fatalAmbiguous (targets : String) : ModuleAction
deriving DecidableEq

/-- The branch structure of one `MODULE_LOOP` iteration of
`Resolver.Resolve`: the override, third-party mapping and first-party
index chain evaluated in order, with the standard-library check and
validation on the no-match path, the self-import check
(`continue MODULE_LOOP`), and the project-root narrowing of multiple
matches. The accumulated dependency set does not influence the branch
taken; `resolveModule` applies the resulting action to it. -/
def moduleAction (cfg : PyConfig) (override : String → Option Label)
    (modulesMapping : String → Option String) (index : String → List FindResult)
    (isStd : String → Option Bool) (frm : Label) (mod : PyModule) : ModuleAction :=
  match override mod.name with
  | some ov0 =>
    let ov1 := if ov0.repo = "" then { ov0 with repo := frm.repo } else ov0
    if ov1 = frm then ModuleAction.skip
    else
      let ov2 := if ov1.repo = frm.repo then { ov1 with repo := "" } else ov1
      ModuleAction.add (labelString ov2)
  | none =>
    match modulesMapping mod.name with
    | some distribution =>
      let dp := rulesPythonDistributionPackage distribution
      ModuleAction.add (labelString (labelNew cfg.pipRepository dp dp))
    | none =>
      let ms := index mod.name
      if ms.isEmpty then
        match isStd mod.name with
        | none => ModuleAction.fatalError
        | some true => ModuleAction.skip
        | some false =>
          if cfg.validateImportStatements then ModuleAction.fatalError else ModuleAction.skip
      else if ms.any (fun m => isSelfImport m frm) then ModuleAction.skip
      else
        match ms with
        | [] => ModuleAction.skip
        | [m] => ModuleAction.add (labelString (labelRel m.label frm.repo frm.pkg))
        | _ =>
          let sameRootMatches := ms.filter (fun m => goHasPre m.label.pkg cfg.pythonProjectRoot)
          match sameRootMatches with
          | [m] => ModuleAction.add (labelString (labelRel m.label frm.repo frm.pkg))
          | _ => ModuleAction.fatalAmbiguous (targetListFromResults ms)

/-- Apply the effect of one iteration to the accumulated dependency
set: `deps.Add(dep)` for a resolution, `hasFatalError = true` for a
fatal error. -/
def applyAction (deps : List String) : ModuleAction → ModuleResolution
  | ModuleAction.skip => ⟨deps, false, none⟩
  | ModuleAction.add dep => ⟨treeAdd dep deps, false, none⟩
  | ModuleAction.fatalError => ⟨deps, true, none⟩
  | ModuleAction.fatalAmbiguous targets => ⟨deps, true, some targets⟩

/-- One full iteration of the `MODULE_LOOP` of `Resolver.Resolve`. -/
def resolveModule (cfg : PyConfig) (override : String → Option Label)
    (modulesMapping : String → Option String) (index : String → List FindResult)
    (isStd : String → Option Bool) (frm : Label) (deps : List String) (mod : PyModule) :
    ModuleResolution :=
  applyAction deps (moduleAction cfg override modulesMapping index isStd frm mod)

/-- Whether a module records a fatal error. -/
def moduleIsFatal (cfg : PyConfig) (override : String → Option Label)
    (modulesMapping : String → Option String) (index : String → List FindResult)
    (isStd : String → Option Bool) (frm : Label) (mod : PyModule) : Bool :=
  match moduleAction cfg override modulesMapping index isStd frm mod with
  | ModuleAction.fatalError => true
  | ModuleAction.fatalAmbiguous _ => true
  | _ => false

/-- The whole `MODULE_LOOP`: fold over the module set, accumulating the
dependency set and the `hasFatalError` flag. -/
def resolveModules (cfg : PyConfig) (override : String → Option Label)
    (modulesMapping : String → Option String) (index : String → List FindResult)
    (isStd : String → Option Bool) (frm : Label) (mods : List PyModule) :
    List String × Bool :=
  mods.foldl (fun acc mod =>
    let r := resolveModule cfg override modulesMapping index isStd frm acc.1 mod
    (r.deps, acc.2 || r.fatal)) ([], false)

/-- Observable outcome of one `Resolver.Resolve` call: either the process
exited with a code, or the call returned with the `deps` attribute it
wrote (`none` when the combined set was empty and no attribute is set). -/
inductive ResolveOutcome where
  | exited (code : Nat) : ResolveOutcome
  | returned (depsAttr : Option (List String)) : ResolveOutcome
deriving DecidableEq

/-- The tail of `Resolver.Resolve`: union the pre-resolved dependency set
in and write the `deps` attribute only when non-empty. -/
def finishDeps (deps resolvedDeps : List String) : ResolveOutcome :=
  let merged := resolvedDeps.foldl (fun acc d => treeAdd d acc) deps
  if merged.isEmpty then ResolveOutcome.returned none
  else ResolveOutcome.returned (some merged)

/-- `Resolver.Resolve`: run the module loop when a module set was passed,
call `os.Exit(1)` after the loop when any module recorded a fatal error,
and otherwise merge the pre-resolved dependencies and write the
attribute. -/
def pyResolve (cfg : PyConfig) (override : String → Option Label)
    (modulesMapping : String → Option String) (index : String → List FindResult)
    (isStd : String → Option Bool) (frm : Label) (modulesRaw : Option (List PyModule))
    (resolvedDeps : List String) : ResolveOutcome :=
  match modulesRaw with
  | some mods =>
    let r := resolveModules cfg override modulesMapping index isStd frm mods
    if r.2 then ResolveOutcome.exited 1 else finishDeps r.1 resolvedDeps
  | none => finishDeps [] resolvedDeps

/-! ## The srcs expression evaluator -/

/-- The shapes of a `bzl.Expr` that `evalSrcsExpr` distinguishes: a
literal list (with string and non-string elements), a literal string, and
any other expression, carried as its formatted source text. -/
inductive BzlExpr where
  | listExpr (elems : List BzlExpr) : BzlExpr
  | stringExpr (value : String) : BzlExpr
  | otherExpr (src : String) : BzlExpr

/-- The literal branch of `evalSrcsExpr`: the values of the string
elements of the list, in list order; other elements are passed over. -/
def stringValuesOf (elems : List BzlExpr) : List String :=
  elems.filterMap (fun e =>
    match e with
    | BzlExpr.stringExpr s => some s
    | _ => none)

/-- Whether the expression is a literal list (`*bzl.ListExpr`). -/
def isListExpr : BzlExpr → Bool
  | BzlExpr.listExpr _ => true
  | _ => false

/-- `bzl.FormatString(expr)`. Only its application to non-list
expressions is consumed (by the opaque parser oracle), so the non-list
constructors carry their own source text. -/
def formatExpr : BzlExpr → String
  | BzlExpr.listExpr _ => "[...]"
  | BzlExpr.stringExpr s => "\"" ++ s ++ "\""
  | BzlExpr.otherExpr src => src

/-- An opaque parsed starlark expression, as produced by
`syntax.ParseExpr`. -/
structure SynExpr where
  src : String
deriving DecidableEq

/-- `evalSrcsExpr(repoRoot, pkg, expr)`. The starlark machinery is kept
abstract: `parse` embeds `syntax.ParseExpr` and `evalStarlark` embeds
`starlark.EvalExpr` with the `glob` builtin bound (so a failing `glob`
call surfaces as an evaluation error). A literal list is answered
directly; a parse failure is wrapped and returned as the error; an
evaluation failure is logged and answered with an empty list and no
error. -/
def evalSrcsExpr (parse : String → Except String SynExpr)
    (evalStarlark : SynExpr → Except String (List String)) (expr : BzlExpr) :
    Except String (List String) :=
  match expr with
  | BzlExpr.listExpr elems => Except.ok (stringValuesOf elems)
  | e =>
    match parse (formatExpr e) with
    | Except.error err => Except.error ("failed to eval srcs expression: " ++ err)
    | Except.ok se =>
      match evalStarlark se with
      | Except.error _ => Except.ok []
      | Except.ok srcs => Except.ok srcs

/-! ## Import spec derivation and Resolver.Imports -/

/-- The language name constant. -/
def languageName : String := "py"

/-- Modelled from the spec: the designated entrypoint filename of a
package (the constant lives in a sibling source file of this extension
and the spec exercises it as `__init__.py`). -/
def pyLibraryEntrypointFilename : String := "__init__.py"

/-- `resolve.ImportSpec`: the published (language, identifier) fact. -/
structure ImportSpec where
  lang : String
  imp : String
deriving DecidableEq

/-- The dotted package prefix computed by the first lines of
`importSpecFromSrc`: directory of the source file joined under the Bazel
package, made relative to the Python project root, `.` collapsed to the
empty prefix, separators turned into dots. -/
def pythonPkgOf (pythonProjectRoot bzlPkg src : String) : String :=
  let pythonPkgDir := pathJoin bzlPkg (filepathDir src)
  let relDir := filepathRel pythonProjectRoot pythonPkgDir
  let relDir2 := if relDir = "." then "" else relDir
  replaceChar '/' '.' relDir2

/-- `importSpecFromSrc(pythonProjectRoot, bzlPkg, src)`: for an
entrypoint filename with a non-empty package prefix, the spec of the
prefix itself is returned; otherwise the spec of
`prefix.moduleName` (or bare `moduleName` for an empty prefix). -/
def importSpecFromSrc (pythonProjectRoot bzlPkg src : String) : ImportSpec :=
  let pythonPkg := pythonPkgOf pythonProjectRoot bzlPkg src
  let filename := filepathBase src
  if filename = pyLibraryEntrypointFilename ∧ pythonPkg ≠ "" then
    ⟨languageName, pythonPkg⟩
  else
    let moduleName := trimSuffix filename ".py"
    if pythonPkg = "" then ⟨languageName, moduleName⟩
    else ⟨languageName, pythonPkg ++ "." ++ moduleName⟩

/-- `Resolver.Imports` after the srcs attribute has been evaluated: one
spec per `.py` source file per declared import root (an empty import list
acts as the single empty root), plus the synthetic library uuid spec,
with `nil` (here `none`) returned when nothing is published. -/
def pyImports (pkg : String) (srcs : List String) (imports : List String)
    (uuid : Option String) : Option (List ImportSpec) :=
  let imports2 := if imports.isEmpty then [""] else imports
  let provides := srcs.flatMap (fun src =>
    if filepathExt src = ".py" then
      imports2.map (fun imp => importSpecFromSrc (pathClean (pathJoin pkg imp)) pkg src)
    else [])
  let provides2 := provides ++ (match uuid with
    | some u => [ImportSpec.mk languageName u]
    | none => [])
  if provides2.isEmpty then none else some provides2

example : importSpecFromSrc "" "pkg" "sub/mod.py" = ⟨"py", "pkg.sub.mod"⟩ := by decide

example : importSpecFromSrc "" "pkg" "sub/__init__.py" = ⟨"py", "pkg.sub"⟩ := by decide

example : pyImports "pkg" ["sub/__init__.py"] [] none = some [⟨"py", "sub"⟩] := by decide

example : rulesPythonDistributionPackage "My-Dist" = "pypi__my_dist" := by decide

example : labelString (labelNew "pip" "pypi__numpy" "pypi__numpy") = "@pip//pypi__numpy" := by
  decide

/-- Whether the expression is a literal string (`*bzl.StringExpr`). -/
def isStringExpr : BzlExpr → Bool
  | BzlExpr.stringExpr _ => true
  | _ => false

/-! ## Concrete fixtures used by witnesses and counterexamples -/

/-- A configuration with strict validation. -/
def exCfg : PyConfig := ⟨"", "pip", true⟩

/-- A configuration with validation disabled. -/
def cfgNoValidate : PyConfig := ⟨"", "pip", false⟩

/-- The label of the resolving rule in the examples. -/
def exFrom : Label := ⟨"", "pkg", "rule", false⟩

/-- No override directives. -/
def ovNone : String → Option Label := fun _ => none

/-- An empty third-party mapping. -/
def mapNone : String → Option String := fun _ => none

/-- A third-party mapping sending `numpy` to the `Numpy` distribution. -/
def mapNumpy : String → Option String := fun n => if n = "numpy" then some "Numpy" else none

/-- A standard-library check that answers no. -/
def stdNo : String → Option Bool := fun _ => some false

/-- A standard-library check that answers yes. -/
def stdYes : String → Option Bool := fun _ => some true

/-- A standard-library check that fails (the error return of
`isStdModule`). -/
def stdErr : String → Option Bool := fun _ => none

/-- An index without matches. -/
def ixEmpty : String → List FindResult := fun _ => []

/-- An import of module `foo`. -/
def exMod : PyModule := ⟨"foo", "foo.py", 7⟩

/-- An index match that is the resolving rule itself. -/
def selfMatch : FindResult := ⟨⟨"", "pkg", "rule", false⟩⟩

/-- An index match in another package. -/
def otherMatch : FindResult := ⟨⟨"", "other", "lib", false⟩⟩

/-- An index answering with the rule itself plus one other candidate. -/
def ixSelfOther : String → List FindResult := fun _ => [selfMatch, otherMatch]

/-- An index answering with exactly one foreign candidate. -/
def ixOther : String → List FindResult := fun _ => [otherMatch]

/-- A parser oracle that accepts everything. -/
def parseOk : String → Except String SynExpr := fun s => Except.ok ⟨s⟩

/-- A parser oracle that rejects everything. -/
def parseFail : String → Except String SynExpr := fun _ => Except.error "syntax error"

/-- An evaluator oracle whose `glob` call fails. -/
def evalFail : SynExpr → Except String (List String) := fun _ => Except.error "failed glob"

/-- An evaluator oracle that produces one file. -/
def evalOk : SynExpr → Except String (List String) := fun _ => Except.ok ["g.py"]

/-! ## C10 -/

/-- C10: for a srcs attribute that is a literal list expression, the
evaluator answers with exactly the values of the string elements in list
order, silently drops non-string elements, and consults neither the
parser nor the interpreter (the answer is invariant under both
oracles). -/
theorem c10LiteralListDirect (parse parse2 : String → Except String SynExpr)
    (evalStarlark evalStarlark2 : SynExpr → Except String (List String))
    (elems : List BzlExpr) :
    evalSrcsExpr parse evalStarlark (BzlExpr.listExpr elems) =
      Except.ok (stringValuesOf elems) ∧
    evalSrcsExpr parse evalStarlark (BzlExpr.listExpr elems) =
      evalSrcsExpr parse2 evalStarlark2 (BzlExpr.listExpr elems) ∧
    (∀ pre e post, isStringExpr e = false →
      evalSrcsExpr parse evalStarlark (BzlExpr.listExpr (pre ++ e :: post)) =
        evalSrcsExpr parse evalStarlark (BzlExpr.listExpr (pre ++ post))) := by
  refine ⟨rfl, rfl, ?_⟩
  intro pre e post he
  simp only [evalSrcsExpr, stringValuesOf, List.filterMap_append, List.filterMap_cons]
  cases e <;> simp_all [isStringExpr]

/-- Witness for C10: a non-string element inside a literal list is
dropped without an error. -/
theorem c10Witness :
    evalSrcsExpr parseOk evalOk
      (BzlExpr.listExpr
        [BzlExpr.stringExpr "a.py", BzlExpr.otherExpr "x+y", BzlExpr.stringExpr "b.py"]) =
    evalSrcsExpr parseOk evalOk
      (BzlExpr.listExpr [BzlExpr.stringExpr "a.py", BzlExpr.stringExpr "b.py"]) :=
  (c10LiteralListDirect parseOk parseOk evalOk evalOk []).2.2
    [BzlExpr.stringExpr "a.py"] (BzlExpr.otherExpr "x+y") [BzlExpr.stringExpr "b.py"] rfl

/-! ## C8 -/

/-- C8: for a dynamic (non-list) srcs expression the two failure modes
are asymmetric: a parse failure propagates to the caller as a hard
error (wrapped), while an evaluation failure, including a failing `glob`
call, is recovered locally into an empty file list with no error. -/
theorem c8ParseEvalAsymmetry (parse : String → Except String SynExpr)
    (evalStarlark : SynExpr → Except String (List String)) (expr : BzlExpr)
    (hnl : isListExpr expr = false) :
    (∀ msg, parse (formatExpr expr) = Except.error msg →
      evalSrcsExpr parse evalStarlark expr =
        Except.error ("failed to eval srcs expression: " ++ msg)) ∧
    (∀ se msg, parse (formatExpr expr) = Except.ok se → evalStarlark se = Except.error msg →
      evalSrcsExpr parse evalStarlark expr = Except.ok []) := by
  cases expr with
  | listExpr es => simp [isListExpr] at hnl
  | stringExpr s =>
    constructor
    · intro msg h
      simp [evalSrcsExpr, h]
    · intro se msg h1 h2
      simp [evalSrcsExpr, h1, h2]
  | otherExpr s =>
    constructor
    · intro msg h
      simp [evalSrcsExpr, h]
    · intro se msg h1 h2
      simp [evalSrcsExpr, h1, h2]

/-- Witness for C8: a failing parse surfaces as the wrapped hard error,
and a failing glob evaluation surfaces as an empty list without error. -/
theorem c8Witness :
    evalSrcsExpr parseFail evalOk (BzlExpr.otherExpr "glob([\x22*.py\x22])") =
      Except.error ("failed to eval srcs expression: " ++ "syntax error") ∧
    evalSrcsExpr parseOk evalFail (BzlExpr.otherExpr "glob([\x22*.py\x22])") = Except.ok [] :=
  ⟨(c8ParseEvalAsymmetry parseFail evalOk (BzlExpr.otherExpr "glob([\x22*.py\x22])") rfl).1
      "syntax error" rfl,
   (c8ParseEvalAsymmetry parseOk evalFail (BzlExpr.otherExpr "glob([\x22*.py\x22])") rfl).2
      ⟨"glob([\x22*.py\x22])"⟩ "failed glob" rfl rfl⟩

/-! ## C7 -/

/-- C7: the per-module chain is override, then third-party mapping, then
first-party index, first match wins. A matching override fixes the result
regardless of the mapping, the index and the standard-library check; a
matching third-party entry fixes the result regardless of the index and
the standard-library check and synthesizes the label of target
`pypi__` + lowercased, dash-to-underscore distribution in the configured
third-party repository. -/
theorem c7ChainFirstMatchWins (cfg : PyConfig) (override : String → Option Label)
    (mp mp2 : String → Option String) (ix ix2 : String → List FindResult)
    (std std2 : String → Option Bool) (frm : Label) (deps : List String) (mod : PyModule)
    (dist : String) :
    ((override mod.name).isSome = true →
      resolveModule cfg override mp ix std frm deps mod =
        resolveModule cfg override mp2 ix2 std2 frm deps mod) ∧
    (override mod.name = none → mp mod.name = some dist →
      resolveModule cfg override mp ix std frm deps mod =
        ⟨treeAdd (labelString (labelNew cfg.pipRepository (rulesPythonDistributionPackage dist)
            (rulesPythonDistributionPackage dist))) deps, false, none⟩ ∧
      resolveModule cfg override mp ix std frm deps mod =
        resolveModule cfg override mp ix2 std2 frm deps mod) ∧
    rulesPythonDistributionPackage dist = "pypi__" ++ replaceChar '-' '_' (strToLower dist) := by
  refine ⟨?_, ?_, rfl⟩
  · intro hov
    rcases h : override mod.name with _ | o
    · rw [h] at hov; simp at hov
    · simp [resolveModule, moduleAction, h]
  · intro hov hmp
    constructor
    · simp [resolveModule, moduleAction, hov, hmp, applyAction]
    · simp [resolveModule, moduleAction, hov, hmp]

/-- Witness for C7: with no override and the mapping sending `numpy` to
distribution `Numpy`, the synthesized dependency is `@pip//pypi__numpy`,
whatever the index would have answered. -/
theorem c7Witness :
    mapNumpy "numpy" = some "Numpy" ∧
    resolveModule exCfg ovNone mapNumpy ixOther stdNo exFrom [] ⟨"numpy", "a.py", 1⟩ =
      ⟨["@pip//pypi__numpy"], false, none⟩ :=
  ⟨rfl,
    ((c7ChainFirstMatchWins exCfg ovNone mapNumpy mapNumpy ixOther ixOther stdNo stdNo exFrom []
        ⟨"numpy", "a.py", 1⟩ "Numpy").2.1 rfl rfl).1.trans (by decide)⟩

/-! ## C4 -/

/-- C4 counterexample: for the entrypoint file `sub/__init__.py` of
package `pkg` (project root empty, as in the specification example), the
derivation returns the package-prefix spec `pkg.sub` alone, and the
publication step publishes exactly one identifier for that file: the
claimed additional `prefix.moduleName` identifier is absent. -/
theorem c4Counterexample :
    importSpecFromSrc "" "pkg" "sub/__init__.py" = ⟨"py", "pkg.sub"⟩ ∧
    pyImports "pkg" ["sub/__init__.py"] [] none = some [⟨"py", "sub"⟩] ∧
    ImportSpec.mk "py" "sub.__init__" ∉
      ((pyImports "pkg" ["sub/__init__.py"] [] none).getD []) := by
  refine ⟨by decide, by decide, by decide⟩

/-- C4 amended: for a source file whose filename is the designated
entrypoint filename and whose derived package prefix is non-empty, the
import-spec derivation provides the package prefix itself as the only
identifier for that file; the `prefix.moduleName` identifier is not
additionally provided. -/
theorem c4EntrypointPrefixOnly (root pkg src : String)
    (hbase : filepathBase src = pyLibraryEntrypointFilename)
    (hpkg : pythonPkgOf root pkg src ≠ "") :
    importSpecFromSrc root pkg src = ⟨languageName, pythonPkgOf root pkg src⟩ := by
  simp only [importSpecFromSrc]
  rw [if_pos ⟨hbase, hpkg⟩]

/-- Witness for C4: the amended statement evaluated on the example file. -/
theorem c4Witness :
    importSpecFromSrc "" "pkg" "sub/__init__.py" = ⟨languageName, "pkg.sub"⟩ :=
  (c4EntrypointPrefixOnly "" "pkg" "sub/__init__.py" (by decide) (by decide)).trans (by decide)

/-! ## C1 -/

/-- C1 counterexample: the first-party lookup answers with the resolving
rule itself plus one other candidate, yet no dependency at all is added —
the module is skipped wholesale (`continue MODULE_LOOP`), the other
candidate included, contradicting the claim that only the self-match is
removed and the surviving single match is taken. -/
theorem c1Counterexample :
    ixSelfOther exMod.name = [selfMatch, otherMatch] ∧
    isSelfImport selfMatch exFrom = true ∧
    isSelfImport otherMatch exFrom = false ∧
    resolveModule exCfg ovNone mapNone ixSelfOther stdNo exFrom [] exMod = ⟨[], false, none⟩ ∧
    labelString (labelRel otherMatch.label exFrom.repo exFrom.pkg) ∉
      (resolveModule exCfg ovNone mapNone ixSelfOther stdNo exFrom [] exMod).deps := by
  refine ⟨rfl, by decide, by decide, by decide, by decide⟩

/-- C1 amended: when any first-party match is the resolving rule itself,
the resolver skips the module entirely and adds no dependency for it
(all other candidates are dropped together with the self-match); the
take-the-single-match step applies only when no match is a self-import,
in which case the single match is relativized and added. -/
theorem c1SelfImportSkipsModule (cfg : PyConfig) (override : String → Option Label)
    (mp : String → Option String) (ix : String → List FindResult)
    (std : String → Option Bool) (frm : Label) (deps : List String) (mod : PyModule)
    (hov : override mod.name = none) (hmp : mp mod.name = none) :
    ((ix mod.name).any (fun m => isSelfImport m frm) = true →
      resolveModule cfg override mp ix std frm deps mod = ⟨deps, false, none⟩) ∧
    (∀ m, ix mod.name = [m] → isSelfImport m frm = false →
      resolveModule cfg override mp ix std frm deps mod =
        ⟨treeAdd (labelString (labelRel m.label frm.repo frm.pkg)) deps, false, none⟩) := by
  constructor
  · intro hself
    have hne : (ix mod.name).isEmpty = false := by
      rcases h : ix mod.name with _ | ⟨a, l⟩
      · rw [h] at hself; simp at hself
      · simp
    simp [resolveModule, moduleAction, hov, hmp, hne, hself, applyAction]
  · intro m hix hsf
    simp [resolveModule, moduleAction, hov, hmp, hix, hsf, applyAction]

/-- Witness for C1: on the counterexample scenario the amended statement
applies and confirms that the module contributes nothing. -/
theorem c1Witness :
    resolveModule exCfg ovNone mapNone ixSelfOther stdNo exFrom [] exMod = ⟨[], false, none⟩ :=
  (c1SelfImportSkipsModule exCfg ovNone mapNone ixSelfOther stdNo exFrom [] exMod rfl rfl).1
    (by decide)

/-! ## C5 -/

/-- C5: with several non-self candidates the resolver narrows to those
whose package path is prefixed by the configured project root; a unique
survivor is relativized and added, and otherwise the module records a
fatal ambiguity error whose message names all the pre-narrowing
candidates. -/
theorem c5AmbiguityNarrowing (cfg : PyConfig) (override : String → Option Label)
    (mp : String → Option String) (ix : String → List FindResult)
    (std : String → Option Bool) (frm : Label) (deps : List String) (mod : PyModule)
    (m1 m2 : FindResult) (rest : List FindResult)
    (hov : override mod.name = none) (hmp : mp mod.name = none)
    (hix : ix mod.name = m1 :: m2 :: rest)
    (hself : (m1 :: m2 :: rest).any (fun m => isSelfImport m frm) = false) :
    (∀ m, (m1 :: m2 :: rest).filter
        (fun m => goHasPre m.label.pkg cfg.pythonProjectRoot) = [m] →
      resolveModule cfg override mp ix std frm deps mod =
        ⟨treeAdd (labelString (labelRel m.label frm.repo frm.pkg)) deps, false, none⟩) ∧
    (((m1 :: m2 :: rest).filter
        (fun m => goHasPre m.label.pkg cfg.pythonProjectRoot)).length ≠ 1 →
      resolveModule cfg override mp ix std frm deps mod =
        ⟨deps, true, some (targetListFromResults (m1 :: m2 :: rest))⟩) := by
  constructor
  · intro m hfil
    simp [resolveModule, moduleAction, hov, hmp, hix, hself, hfil, applyAction]
  · intro hlen
    rcases hfil : (m1 :: m2 :: rest).filter
        (fun m => goHasPre m.label.pkg cfg.pythonProjectRoot) with _ | ⟨a, _ | ⟨b, l⟩⟩
    · simp [resolveModule, moduleAction, hov, hmp, hix, hself, hfil, applyAction]
    · rw [hfil] at hlen; simp at hlen
    · simp [resolveModule, moduleAction, hov, hmp, hix, hself, hfil, applyAction]

/-- Witness for C5: candidates at `//a/b:lib` and `//c/d:lib` with
project root `a` resolve to `//a/b:lib`, exactly as in the specification
example. -/
theorem c5Witness :
    resolveModule ⟨"a", "pip", true⟩ ovNone mapNone
      (fun _ => [⟨⟨"", "a/b", "lib", false⟩⟩, ⟨⟨"", "c/d", "lib", false⟩⟩]) stdNo exFrom []
      exMod = ⟨["//a/b:lib"], false, none⟩ :=
  ((c5AmbiguityNarrowing ⟨"a", "pip", true⟩ ovNone mapNone
      (fun _ => [⟨⟨"", "a/b", "lib", false⟩⟩, ⟨⟨"", "c/d", "lib", false⟩⟩]) stdNo exFrom []
      exMod ⟨⟨"", "a/b", "lib", false⟩⟩ ⟨⟨"", "c/d", "lib", false⟩⟩ [] rfl rfl rfl
      (by decide)).1 ⟨⟨"", "a/b", "lib", false⟩⟩ (by decide)).trans (by decide)

/-! ## C6 -/

/-- The `hasFatalError` flag a module loop leaves behind is the
disjunction over the per-module fatal flags, whatever state the fold
starts from. -/
theorem foldFatalFlag (cfg : PyConfig) (override : String → Option Label)
    (mp : String → Option String) (ix : String → List FindResult)
    (std : String → Option Bool) (frm : Label) :
    ∀ (mods : List PyModule) (acc : List String × Bool),
      (mods.foldl (fun acc mod =>
        let r := resolveModule cfg override mp ix std frm acc.1 mod
        (r.deps, acc.2 || r.fatal)) acc).2 =
      (acc.2 || mods.any (fun mod => moduleIsFatal cfg override mp ix std frm mod)) := by
  intro mods
  induction mods with
  | nil => intro acc; simp
  | cons m rest ih =>
    intro acc
    simp only [List.foldl_cons, List.any_cons]
    rw [ih]
    have hone : (resolveModule cfg override mp ix std frm acc.1 m).fatal =
        moduleIsFatal cfg override mp ix std frm m := by
      unfold resolveModule moduleIsFatal
      cases moduleAction cfg override mp ix std frm m <;> rfl
    rw [hone, Bool.or_assoc]

/-- `finishDeps` always returns normally. -/
theorem finishDepsReturns (deps resolvedDeps : List String) :
    ∀ code, finishDeps deps resolvedDeps ≠ ResolveOutcome.exited code := by
  intro code
  simp only [finishDeps]
  split <;> simp

/-- C6 amended: resolution of a rule evaluates the fatal condition of
every module of the module set (the exit decision is the disjunction over
the full list, not a short-circuit at the first failure), the process
exits with status 1 exactly when at least one module records a fatal
condition, and with no fatal condition the call returns normally, never
exiting. The fatal conditions are those of the code: a failing
standard-library check, unresolved-and-invalid under strict validation,
or an ambiguous first-party match. -/
theorem c6BatchedFatalExit (cfg : PyConfig) (override : String → Option Label)
    (mp : String → Option String) (ix : String → List FindResult)
    (std : String → Option Bool) (frm : Label) (mods : List PyModule)
    (resolvedDeps : List String) :
    (pyResolve cfg override mp ix std frm (some mods) resolvedDeps =
        ResolveOutcome.exited 1 ↔
      mods.any (fun mod => moduleIsFatal cfg override mp ix std frm mod) = true) ∧
    (mods.any (fun mod => moduleIsFatal cfg override mp ix std frm mod) = false →
      pyResolve cfg override mp ix std frm (some mods) resolvedDeps =
        finishDeps (resolveModules cfg override mp ix std frm mods).1 resolvedDeps ∧
      ∀ code, pyResolve cfg override mp ix std frm (some mods) resolvedDeps ≠
        ResolveOutcome.exited code) := by
  have hflag : (resolveModules cfg override mp ix std frm mods).2 =
      mods.any (fun mod => moduleIsFatal cfg override mp ix std frm mod) := by
    unfold resolveModules
    rw [foldFatalFlag]
    simp
  have hmain : pyResolve cfg override mp ix std frm (some mods) resolvedDeps =
      (if mods.any (fun mod => moduleIsFatal cfg override mp ix std frm mod) = true then
        ResolveOutcome.exited 1
      else finishDeps (resolveModules cfg override mp ix std frm mods).1 resolvedDeps) := by
    simp only [pyResolve]
    rw [hflag]
  constructor
  · constructor
    · intro h
      by_contra hfalse
      have hf : mods.any (fun mod => moduleIsFatal cfg override mp ix std frm mod) = false := by
        cases hval : mods.any (fun mod => moduleIsFatal cfg override mp ix std frm mod)
        · rfl
        · exact absurd hval hfalse
      rw [hmain, hf] at h
      simp at h
      exact finishDepsReturns _ _ 1 h
    · intro h
      rw [hmain, h]
      simp
  · intro h
    constructor
    · rw [hmain, h]
      simp
    · intro code
      rw [hmain, h]
      simp only [Bool.false_eq_true, if_false]
      exact finishDepsReturns _ _ code

/-- The fatal conditions as the claim words them: a module that is
unresolved (no override, no third-party mapping, no index match) and
invalid under strict validation, or an ambiguous first-party match (more
than one non-self candidate with no unique project-root survivor). -/
def claimFatalCondition (cfg : PyConfig) (override : String → Option Label)
    (mp : String → Option String) (ix : String → List FindResult)
    (std : String → Option Bool) (frm : Label) (mod : PyModule) : Bool :=
  let ms := ix mod.name
  let unresolvedInvalid :=
    cfg.validateImportStatements && (override mod.name).isNone && (mp mod.name).isNone &&
    ms.isEmpty && !((std mod.name).getD false)
  let ambiguous :=
    (override mod.name).isNone && (mp mod.name).isNone && decide (1 < ms.length) &&
    !(ms.any (fun m => isSelfImport m frm)) &&
    decide ((ms.filter (fun m => goHasPre m.label.pkg cfg.pythonProjectRoot)).length ≠ 1)
  unresolvedInvalid || ambiguous

/-- C6 counterexample: with validation disabled, no candidates and a
failing standard-library check, no module satisfies either fatal
condition named by the claim, yet the process exits with status 1. -/
theorem c6Counterexample :
    pyResolve cfgNoValidate ovNone mapNone ixEmpty stdErr exFrom (some [exMod]) [] =
      ResolveOutcome.exited 1 ∧
    claimFatalCondition cfgNoValidate ovNone mapNone ixEmpty stdErr exFrom exMod = false := by
  refine ⟨by decide, by decide⟩

/-- Witness for C6: a fatal-free run returns normally with the
pre-resolved dependency kept. -/
theorem c6Witness :
    List.any [exMod] (fun mod => moduleIsFatal exCfg ovNone mapNone ixEmpty stdYes exFrom mod) =
      false ∧
    pyResolve exCfg ovNone mapNone ixEmpty stdYes exFrom (some [exMod]) ["//common:base"] =
      ResolveOutcome.returned (some ["//common:base"]) :=
  ⟨by decide,
    ((c6BatchedFatalExit exCfg ovNone mapNone ixEmpty stdYes exFrom [exMod]
        ["//common:base"]).2 (by decide)).1.trans (by decide)⟩

/-! ## C9 -/

/-- After replacing the children of a present key, the lookup finds the
key with its flags kept and the new children. -/
theorem lookupReplace (part : String) (ch2 : PTree) :
    ∀ (t : PTree) (b f : Bool) (ch : PTree), lookupNode part t = some (b, f, ch) →
      lookupNode part (replaceChildren part ch2 t) = some (b, f, ch2) := by
  intro t
  induction t with
  | nil => intro b f ch h; simp [lookupNode] at h
  | branch p b0 f0 ch0 sib ihch ihsib =>
    intro b f ch h
    by_cases hp : p = part
    · simp [lookupNode, hp] at h
      simp [replaceChildren, lookupNode, hp, h]
    · simp only [lookupNode, if_neg hp] at h
      simp only [replaceChildren, if_neg hp, lookupNode]
      exact ihsib b f ch h

/-- Replacing the children of a key twice with the same subtree is the
same as replacing them once. -/
theorem replaceReplace (part : String) (ch2 : PTree) :
    ∀ t : PTree, replaceChildren part ch2 (replaceChildren part ch2 t) =
      replaceChildren part ch2 t := by
  intro t
  induction t with
  | nil => rfl
  | branch p b0 f0 ch0 sib ihch ihsib =>
    by_cases hp : p = part
    · simp [replaceChildren, hp]
    · simp [replaceChildren, hp, ihsib]

/-- After appending an absent key, the lookup finds it with the appended
flags and children. -/
theorem lookupAppend (part : String) (b f : Bool) (ch : PTree) :
    ∀ t : PTree, lookupNode part t = none →
      lookupNode part (appendBranch part b f ch t) = some (b, f, ch) := by
  intro t
  induction t with
  | nil => intro h; simp [appendBranch, lookupNode]
  | branch p b0 f0 ch0 sib ihch ihsib =>
    intro h
    by_cases hp : p = part
    · simp [lookupNode, hp] at h
    · simp only [lookupNode, if_neg hp] at h
      simp only [appendBranch, lookupNode, if_neg hp]
      exact ihsib h

/-- Replacing the children of a key that was just appended rewrites the
appended entry. -/
theorem replaceAppend (part : String) (b f : Bool) (ch ch2 : PTree) :
    ∀ t : PTree, lookupNode part t = none →
      replaceChildren part ch2 (appendBranch part b f ch t) = appendBranch part b f ch2 t := by
  intro t
  induction t with
  | nil => intro h; simp [appendBranch, replaceChildren]
  | branch p b0 f0 ch0 sib ihch ihsib =>
    intro h
    by_cases hp : p = part
    · simp [lookupNode, hp] at h
    · simp only [lookupNode, if_neg hp] at h
      simp only [appendBranch, replaceChildren, if_neg hp]
      rw [ihsib h]

/-- `AddPath` is idempotent: re-inserting a path whose segments are all
present leaves the tree unchanged. -/
theorem addPathIdem (isPkg : List String → Bool) :
    ∀ (parts pfx : List String) (t : PTree),
      addPath isPkg pfx (addPath isPkg pfx t parts) parts = addPath isPkg pfx t parts := by
  intro parts
  induction parts with
  | nil => intro pfx t; rfl
  | cons part rest ih =>
    intro pfx t
    rcases h : lookupNode part t with _ | ⟨⟨b, f, ch⟩⟩
    · simp only [addPath, h]
      rw [lookupAppend part (!rest.isEmpty && isPkg (pfx ++ [part])) rest.isEmpty
        (addPath isPkg (pfx ++ [part]) PTree.nil rest) t h]
      dsimp only
      rw [ih (pfx ++ [part]) PTree.nil]
      exact replaceAppend part _ _ _ _ t h
    · simp only [addPath, h]
      rw [lookupReplace part (addPath isPkg (pfx ++ [part]) ch rest) t b f ch h]
      dsimp only
      rw [ih (pfx ++ [part]) ch]
      exact replaceReplace part _ t

/-- Replacing children leaves the branch keys unchanged. -/
theorem keysReplace (part : String) (ch2 : PTree) :
    ∀ t : PTree, keysOf (replaceChildren part ch2 t) = keysOf t := by
  intro t
  induction t with
  | nil => rfl
  | branch p b0 f0 ch0 sib ihch ihsib =>
    by_cases hp : p = part
    · simp [replaceChildren, hp, keysOf]
    · simp [replaceChildren, hp, keysOf, ihsib]

/-- Appending a branch appends its key. -/
theorem keysAppend (part : String) (b f : Bool) (ch : PTree) :
    ∀ t : PTree, keysOf (appendBranch part b f ch t) = keysOf t ++ [part] := by
  intro t
  induction t with
  | nil => rfl
  | branch p b0 f0 ch0 sib ihch ihsib => simp [appendBranch, keysOf, ihsib]

/-- A key is absent exactly when the lookup misses. -/
theorem lookupNoneIffKeys (part : String) :
    ∀ t : PTree, lookupNode part t = none ↔ part ∉ keysOf t := by
  intro t
  induction t with
  | nil => simp [lookupNode, keysOf]
  | branch p b0 f0 ch0 sib ihch ihsib =>
    by_cases hp : p = part
    · simp [lookupNode, keysOf, hp]
    · simp only [lookupNode, if_neg hp, keysOf, List.mem_cons, ihsib]
      have hne : ¬part = p := fun hh => hp hh.symm
      simp [hne]

/-- Well-formedness of the embedding of a Go map tree: at every node the
branch keys are distinct. -/
def treeWF : PTree → Prop
  | PTree.nil => True
  | PTree.branch p _ _ ch sib => p ∉ keysOf sib ∧ treeWF ch ∧ treeWF sib

/-- Lookup reaches a well-formed subtree. -/
theorem treeWFLookup (part : String) :
    ∀ (t : PTree) (b f : Bool) (ch : PTree), treeWF t →
      lookupNode part t = some (b, f, ch) → treeWF ch := by
  intro t
  induction t with
  | nil => intro b f ch _ h; simp [lookupNode] at h
  | branch p b0 f0 ch0 sib ihch ihsib =>
    intro b f ch hwf h
    obtain ⟨hk, hc, hs⟩ := hwf
    by_cases hp : p = part
    · simp [lookupNode, hp] at h
      rw [← h.2.2]
      exact hc
    · simp only [lookupNode, if_neg hp] at h
      exact ihsib b f ch hs h

/-- Replacing children with a well-formed subtree keeps the tree
well-formed. -/
theorem treeWFReplace (part : String) (ch2 : PTree) :
    ∀ t : PTree, treeWF t → treeWF ch2 → treeWF (replaceChildren part ch2 t) := by
  intro t
  induction t with
  | nil => intro h _; exact h
  | branch p b0 f0 ch0 sib ihch ihsib =>
    intro hwf hch2
    obtain ⟨hk, hc, hs⟩ := hwf
    by_cases hp : p = part
    · simp only [replaceChildren, if_pos hp, treeWF]
      exact ⟨hk, hch2, hs⟩
    · simp only [replaceChildren, if_neg hp, treeWF]
      exact ⟨by rw [keysReplace]; exact hk, hc, ihsib hs hch2⟩

/-- Appending an absent key with well-formed children keeps the tree
well-formed. -/
theorem treeWFAppend (part : String) (b f : Bool) (ch : PTree) :
    ∀ t : PTree, treeWF t → treeWF ch → lookupNode part t = none →
      treeWF (appendBranch part b f ch t) := by
  intro t
  induction t with
  | nil =>
    intro _ hch _
    exact ⟨by simp [keysOf], hch, trivial⟩
  | branch p b0 f0 ch0 sib ihch ihsib =>
    intro hwf hch h
    obtain ⟨hk, hc, hs⟩ := hwf
    by_cases hp : p = part
    · simp [lookupNode, hp] at h
    · simp only [lookupNode, if_neg hp] at h
      refine ⟨?_, hc, ihsib hs hch h⟩
      rw [keysAppend]
      simp only [List.mem_append, List.mem_singleton]
      rintro (hmem | hmem)
      · exact hk hmem
      · exact hp hmem

/-- `AddPath` preserves well-formedness. -/
theorem treeWFAddPath (isPkg : List String → Bool) :
    ∀ (parts pfx : List String) (t : PTree), treeWF t → treeWF (addPath isPkg pfx t parts) := by
  intro parts
  induction parts with
  | nil => intro pfx t h; exact h
  | cons part rest ih =>
    intro pfx t hwf
    rcases h : lookupNode part t with _ | ⟨⟨b, f, ch⟩⟩
    · simp only [addPath, h]
      exact treeWFAppend part _ _ _ t hwf (ih (pfx ++ [part]) PTree.nil trivial) h
    · simp only [addPath, h]
      exact treeWFReplace part _ t hwf (ih (pfx ++ [part]) ch (treeWFLookup part t b f ch hwf h))

/-- The tree a glob run builds is well-formed. -/
theorem treeWFBuild (isPkg : List String → Bool) (ps : List (List String)) :
    treeWF (buildTree isPkg ps) := by
  have haux : ∀ (l : List (List String)) (t : PTree), treeWF t →
      treeWF (l.foldl (fun t parts => addPath isPkg [] t parts) t) := by
    intro l
    induction l with
    | nil => intro t h; exact h
    | cons q qs ihq => intro t h; exact ihq _ (treeWFAddPath isPkg q [] t h)
  exact haux ps PTree.nil trivial

/-- Every reported path is non-empty and starts with a branch key. -/
theorem pathsShape :
    ∀ (t : PTree) (l : List String), l ∈ paths t →
      ∃ p tl2, l = p :: tl2 ∧ p ∈ keysOf t := by
  intro t
  induction t with
  | nil => intro l h; simp [paths] at h
  | branch p b f ch sib ihch ihsib =>
    intro l h
    rw [paths] at h
    rcases List.mem_append.mp h with hA | hB
    · cases b with
      | true => simp at hA
      | false =>
        simp only [Bool.false_eq_true, if_false] at hA
        rcases List.mem_append.mp hA with hF | hM
        · cases f with
          | true =>
            simp at hF
            exact ⟨p, [], hF, by simp [keysOf]⟩
          | false => simp at hF
        · obtain ⟨l2, _, hl⟩ := List.mem_map.mp hM
          exact ⟨p, l2, hl.symm, by simp [keysOf]⟩
    · obtain ⟨q, tl2, hq, hmem⟩ := ihsib l hB
      exact ⟨q, tl2, hq, by simp [keysOf, hmem]⟩

/-- `Paths()` of a well-formed tree has no duplicates. -/
theorem pathsNodup : ∀ t : PTree, treeWF t → (paths t).Nodup := by
  intro t
  induction t with
  | nil => intro _; simp [paths]
  | branch p b f ch sib ihch ihsib =>
    intro hwf
    obtain ⟨hk, hc, hs⟩ := hwf
    rw [paths]
    refine List.Nodup.append ?_ (ihsib hs) ?_
    · cases b with
      | true => simp
      | false =>
        simp only [Bool.false_eq_true, if_false]
        have hmap : ((paths ch).map (fun q => p :: q)).Nodup :=
          (ihch hc).map (fun x y hxy => by simpa using hxy)
        cases f with
        | true =>
          show ([p] :: (paths ch).map (fun q => p :: q)).Nodup
          rw [List.nodup_cons]
          refine ⟨?_, hmap⟩
          intro hmem
          obtain ⟨l2, hl2, hl⟩ := List.mem_map.mp hmem
          obtain ⟨q, tl2, hq, _⟩ := pathsShape ch l2 hl2
          rw [hq] at hl
          simp at hl
        | false => simpa using hmap
    · intro l hlA hlB
      obtain ⟨q, tl2, hq, hqk⟩ := pathsShape sib l hlB
      have hhead : ∃ tl3, l = p :: tl3 := by
        cases b with
        | true => simp at hlA
        | false =>
          simp only [Bool.false_eq_true, if_false] at hlA
          rcases List.mem_append.mp hlA with hF | hM
          · cases f with
            | true =>
              simp at hF
              exact ⟨[], hF⟩
            | false => simp at hF
          · obtain ⟨l2, _, hl⟩ := List.mem_map.mp hM
            exact ⟨l2, hl.symm⟩
      obtain ⟨tl3, hl3⟩ := hhead
      rw [hl3] at hq
      injection hq with h1 h2
      rw [← h1] at hqk
      exact hk hqk

/-- C9: `AddPath` is idempotent (re-inserting an already present path is
a no-op on the tree), and consequently a file matched by overlapping
include patterns of one glob call occurs at most once in `Paths()`: the
path list of any built tree has no duplicate entries. -/
theorem c9AddPathIdempotentDedup :
    (∀ (isPkg : List String → Bool) (pfx parts : List String) (t : PTree),
      addPath isPkg pfx (addPath isPkg pfx t parts) parts = addPath isPkg pfx t parts) ∧
    (∀ (isPkg : List String → Bool) (ps : List (List String)),
      (paths (buildTree isPkg ps)).Nodup) :=
  ⟨fun isPkg pfx parts t => addPathIdem isPkg parts pfx t,
   fun isPkg ps => pathsNodup _ (treeWFBuild isPkg ps)⟩

/-! ## C3 -/

/-- The invariant `AddPath` maintains for a tree built from the insertion
set `S` below the prefix `pfx`: a directory node whose boundary flag is
off was either created as a file node (so the flag was never computed) or
genuinely has no build file; and a file node was created by inserting
exactly its path. -/
def treeInv (isPkg : List String → Bool) (S : List (List String)) :
    List String → PTree → Prop
  | _, PTree.nil => True
  | pfx, PTree.branch p b f ch sib =>
    (b = false → f = true ∨ isPkg (pfx ++ [p]) = false) ∧
    (f = true → (pfx ++ [p]) ∈ S) ∧
    treeInv isPkg S (pfx ++ [p]) ch ∧ treeInv isPkg S pfx sib

/-- Lookup reaches an invariant subtree. -/
theorem treeInvLookup (isPkg : List String → Bool) (S : List (List String)) (part : String) :
    ∀ (t : PTree) (pfx : List String) (b f : Bool) (ch : PTree),
      treeInv isPkg S pfx t → lookupNode part t = some (b, f, ch) →
      treeInv isPkg S (pfx ++ [part]) ch := by
  intro t
  induction t with
  | nil => intro pfx b f ch _ h; simp [lookupNode] at h
  | branch p b0 f0 ch0 sib ihch ihsib =>
    intro pfx b f ch hinv h
    obtain ⟨h1, h2, hc, hs⟩ := hinv
    by_cases hp : p = part
    · simp [lookupNode, hp] at h
      rw [← h.2.2, ← hp]
      exact hc
    · simp only [lookupNode, if_neg hp] at h
      exact ihsib pfx b f ch hs h

/-- Replacing the children of a present key with an invariant subtree
preserves the invariant (the flags of the entry are untouched). -/
theorem treeInvReplace (isPkg : List String → Bool) (S : List (List String)) (part : String)
    (ch2 : PTree) :
    ∀ (t : PTree) (pfx : List String), treeInv isPkg S pfx t →
      treeInv isPkg S (pfx ++ [part]) ch2 →
      treeInv isPkg S pfx (replaceChildren part ch2 t) := by
  intro t
  induction t with
  | nil => intro pfx h _; exact h
  | branch p b0 f0 ch0 sib ihch ihsib =>
    intro pfx hinv hch2
    obtain ⟨h1, h2, hc, hs⟩ := hinv
    by_cases hp : p = part
    · simp only [replaceChildren, if_pos hp, treeInv]
      exact ⟨h1, h2, by rw [hp]; exact hch2, hs⟩
    · simp only [replaceChildren, if_neg hp, treeInv]
      exact ⟨h1, h2, hc, ihsib pfx hs hch2⟩

/-- Appending a fresh entry that satisfies the invariant conditions
preserves the invariant. -/
theorem treeInvAppend (isPkg : List String → Bool) (S : List (List String)) (part : String)
    (b f : Bool) (ch : PTree) :
    ∀ (t : PTree) (pfx : List String), treeInv isPkg S pfx t →
      (b = false → f = true ∨ isPkg (pfx ++ [part]) = false) →
      (f = true → (pfx ++ [part]) ∈ S) →
      treeInv isPkg S (pfx ++ [part]) ch →
      treeInv isPkg S pfx (appendBranch part b f ch t) := by
  intro t
  induction t with
  | nil => intro pfx _ hb hf hch; exact ⟨hb, hf, hch, trivial⟩
  | branch p b0 f0 ch0 sib ihch ihsib =>
    intro pfx hinv hb hf hch
    obtain ⟨h1, h2, hc, hs⟩ := hinv
    exact ⟨h1, h2, hc, ihsib pfx hs hb hf hch⟩

/-- `AddPath` of a path recorded in `S` preserves the invariant. -/
theorem treeInvAddPath (isPkg : List String → Bool) (S : List (List String)) :
    ∀ (parts pfx : List String) (t : PTree), treeInv isPkg S pfx t →
      (pfx ++ parts) ∈ S → treeInv isPkg S pfx (addPath isPkg pfx t parts) := by
  intro parts
  induction parts with
  | nil => intro pfx t h _; exact h
  | cons part rest ih =>
    intro pfx t hinv hmem
    have hmem2 : ((pfx ++ [part]) ++ rest) ∈ S := by
      simpa [List.append_assoc] using hmem
    rcases h : lookupNode part t with _ | ⟨⟨b, f, ch⟩⟩
    · simp only [addPath, h]
      refine treeInvAppend isPkg S part _ _ _ t pfx hinv ?_ ?_ ?_
      · intro hflag
        cases hemp : rest.isEmpty with
        | true => exact Or.inl rfl
        | false =>
          right
          rw [hemp] at hflag
          simpa using hflag
      · intro hfile
        have hrest : rest = [] := List.isEmpty_iff.mp hfile
        rw [hrest] at hmem2
        simpa using hmem2
      · exact ih (pfx ++ [part]) PTree.nil trivial hmem2
    · simp only [addPath, h]
      exact treeInvReplace isPkg S part _ t pfx hinv
        (ih (pfx ++ [part]) ch (treeInvLookup isPkg S part t pfx b f ch hinv h) hmem2)

/-- The tree built by a glob run satisfies the invariant with respect to
its own insertion list. -/
theorem treeInvBuild (isPkg : List String → Bool) (ps : List (List String)) :
    treeInv isPkg ps [] (buildTree isPkg ps) := by
  have haux : ∀ (l : List (List String)) (t : PTree), (∀ q ∈ l, q ∈ ps) →
      treeInv isPkg ps [] t →
      treeInv isPkg ps [] (l.foldl (fun t parts => addPath isPkg [] t parts) t) := by
    intro l
    induction l with
    | nil => intro t _ h; exact h
    | cons q qs ihq =>
      intro t hsub h
      refine ihq _ (fun r hr => hsub r (List.mem_cons_of_mem q hr)) ?_
      have hq := treeInvAddPath isPkg ps q [] t h
        (by simpa using hsub q (List.mem_cons_self q qs))
      simpa using hq
  exact haux ps PTree.nil (fun q h => h) trivial

/-- Core of the boundary property: in an invariant tree, a reported path
that properly descends through a directory with a build file forces that
directory to have been inserted as a complete path itself. -/
theorem pathsBoundaryInv (isPkg : List String → Bool) (S : List (List String)) :
    ∀ (t : PTree) (pfx segs d : List String),
      treeInv isPkg S pfx t → segs ∈ paths t → d ≠ [] → d <+: segs → d ≠ segs →
      isPkg (pfx ++ d) = true → (pfx ++ d) ∈ S := by
  intro t
  induction t with
  | nil => intro pfx segs d _ hmem; simp [paths] at hmem
  | branch p b f ch sib ihch ihsib =>
    intro pfx segs d hinv hmem hdne hdp hdneq hpkg
    obtain ⟨h1, h2, hch, hsib⟩ := hinv
    rw [paths] at hmem
    rcases List.mem_append.mp hmem with hA | hB
    · cases b with
      | true => simp at hA
      | false =>
        simp only [Bool.false_eq_true, if_false] at hA
        rcases List.mem_append.mp hA with hF | hM
        · cases f with
          | false => simp at hF
          | true =>
            simp at hF
            rw [hF] at hdp hdneq
            obtain ⟨t2, ht⟩ := hdp
            cases d with
            | nil => exact absurd rfl hdne
            | cons x d2 =>
              rw [List.cons_append] at ht
              injection ht with hx htl
              have hd2 : d2 = [] := (List.append_eq_nil.mp htl).1
              rw [hx, hd2] at hdneq
              exact absurd rfl hdneq
        · obtain ⟨segs2, hsegs2, heq⟩ := List.mem_map.mp hM
          cases d with
          | nil => exact absurd rfl hdne
          | cons x d2 =>
            rw [← heq] at hdp hdneq
            obtain ⟨hx, hd2⟩ := List.cons_prefix_cons.mp hdp
            cases d2 with
            | nil =>
              rcases h1 rfl with hf | hcontra
              · have hmemS := h2 hf
                rw [hx]
                simpa using hmemS
              · rw [hx] at hpkg
                rw [hcontra] at hpkg
                simp at hpkg
            | cons y d3 =>
              have hne2 : y :: d3 ≠ segs2 := by
                intro he
                apply hdneq
                rw [hx, he]
              have hres := ihch (pfx ++ [p]) segs2 (y :: d3) hch hsegs2
                (by simp) hd2 hne2
                (by rw [List.append_assoc, List.singleton_append, ← hx]; exact hpkg)
              rw [← List.append_cons] at hres
              rw [hx]
              simpa using hres
    · exact ihsib pfx segs d hsib hB hdne hdp hdneq hpkg

/-- C3 amended: if a strict directory prefix of a path has a build file
and that directory was never itself inserted as a complete path, then
`Paths()` reports neither the path nor anything beneath the boundary
directory. (When the boundary directory is first inserted as a file path
of its own, its node is created as a file and the boundary flag is never
computed; the unamended claim fails there.) -/
theorem c3BoundaryFiltering (isPkg : List String → Bool) (ps : List (List String))
    (d : List String) (hdne : d ≠ []) (hpkg : isPkg d = true) (hdnotin : d ∉ ps) :
    ∀ segs, d <+: segs → d ≠ segs → segs ∉ paths (buildTree isPkg ps) := by
  intro segs hdp hdneq hmem
  have hres := pathsBoundaryInv isPkg ps (buildTree isPkg ps) [] segs d
    (treeInvBuild isPkg ps) hmem hdne hdp hdneq (by simpa using hpkg)
  simp at hres
  exact hdnotin hres

/-- The boundary predicate of the C3 scenario: directory `a` holds a
build file. -/
def exPkgA : List String → Bool := fun l => decide (l = ["a"])

/-- C3 counterexample: inserting the boundary directory `a` itself as a
path first (its node is created as a file, the flag is never computed)
and then `a/b` makes `Paths()` report `a/b`, a path descending through a
directory classified as a package boundary. -/
theorem c3Counterexample :
    exPkgA ["a"] = true ∧ ["a"] <+: ["a", "b"] ∧ ["a"] ≠ ["a", "b"] ∧
    ["a", "b"] ∈ paths (buildTree exPkgA [["a"], ["a", "b"]]) := by
  refine ⟨by decide, ⟨["b"], rfl⟩, by decide, by decide⟩

/-- Witness for C3: without the file-first insertion the boundary holds
and `a/b` is filtered out. -/
theorem c3Witness : ["a", "b"] ∉ paths (buildTree exPkgA [["a", "b"]]) :=
  c3BoundaryFiltering exPkgA [["a", "b"]] ["a"] (by decide) (by decide) (by decide)
    ["a", "b"] ⟨["b"], rfl⟩ (by decide)

/-! ## C2 -/

/-- An entry of a branch list is strictly shallower than its node. -/
theorem entryDepth :
    ∀ (t : PTree) (e : String × Bool × Bool × PTree),
      e ∈ toEntries t → depth e.2.2.2 < depth t := by
  intro t
  induction t with
  | nil => intro e h; simp [toEntries] at h
  | branch p b f ch sib ihch ihsib =>
    intro e h
    rw [toEntries] at h
    rcases List.mem_cons.mp h with he | he
    · rw [he]
      simp only [depth]
      omega
    · have hs := ihsib e he
      simp only [depth]
      omega

/-- In the entry order of the branch list itself, the oracle-ordered
traversal agrees with `paths` up to the fuel of the children. -/
theorem entriesFlatMapPerm
    (reorder : List (String × Bool × Bool × PTree) → List (String × Bool × Bool × PTree))
    (n : Nat)
    (hrec : ∀ ch : PTree, depth ch ≤ n → (pathsO reorder n ch).Perm (paths ch)) :
    ∀ t : PTree, depth t ≤ n + 1 →
      ((toEntries t).flatMap (fun e =>
        if e.2.1 then []
        else (if e.2.2.1 then [[e.1]] else []) ++
          (pathsO reorder n e.2.2.2).map (fun q => e.1 :: q))).Perm (paths t) := by
  intro t
  induction t with
  | nil => intro _; simp [toEntries, paths]
  | branch p b f ch sib ihch ihsib =>
    intro ht
    rw [toEntries, List.flatMap_cons, paths]
    have hd : depth ch ≤ n := by simp only [depth] at ht; omega
    have hds : depth sib ≤ n + 1 := by simp only [depth] at ht; omega
    refine List.Perm.append ?_ (ihsib hds)
    dsimp only
    cases b with
    | true => simp
    | false =>
      simp only [Bool.false_eq_true, if_false]
      exact List.Perm.append_left _ ((hrec ch hd).map _)

/-- `Paths()` under any admissible map iteration order is a permutation
of `paths`, from any sufficient fuel on. -/
theorem pathsOPerm
    (reorder : List (String × Bool × Bool × PTree) → List (String × Bool × Bool × PTree))
    (hr : ValidReorder reorder) :
    ∀ (n : Nat) (t : PTree), depth t ≤ n → (pathsO reorder n t).Perm (paths t) := by
  intro n
  induction n with
  | zero =>
    intro t ht
    cases t with
    | nil => simp [pathsO, paths]
    | branch p b f ch sib =>
      exfalso
      simp only [depth] at ht
      omega
  | succ n ih =>
    intro t ht
    have h1 : (pathsO reorder (n + 1) t).Perm ((toEntries t).flatMap (fun e =>
        if e.2.1 then []
        else (if e.2.2.1 then [[e.1]] else []) ++
          (pathsO reorder n e.2.2.2).map (fun q => e.1 :: q))) := by
      simp only [pathsO]
      exact List.Perm.flatMap_right _ (hr (toEntries t))
    exact h1.trans (entriesFlatMapPerm reorder n (fun ch hch => ih ch hch) t ht)

/-- C2 amended: two glob runs over identical include and exclude
arguments, an identical package directory and identical filesystem
contents return the same paths as a multiset: the results are
permutations of each other, for any two admissible map iteration orders.
The element order itself is not preserved (Go map iteration order is
unspecified), which is what the counterexample exhibits. -/
theorem c2GlobOrderIndependentSet (isPkg : List String → Bool)
    (matcher : String → List (List String)) (includes excludes : List String)
    (r1 r2 : List (String × Bool × Bool × PTree) → List (String × Bool × Bool × PTree))
    (n1 n2 : Nat) (h1 : ValidReorder r1) (h2 : ValidReorder r2)
    (hd1 : depth (globTree isPkg matcher includes excludes) ≤ n1)
    (hd2 : depth (globTree isPkg matcher includes excludes) ≤ n2) :
    (globResult isPkg matcher includes excludes r1 n1).Perm
      (globResult isPkg matcher includes excludes r2 n2) := by
  unfold globResult
  exact ((pathsOPerm r1 h1 n1 _ hd1).trans (pathsOPerm r2 h2 n2 _ hd2).symm).map _

/-- The boundary predicate of the C2 scenario: no build files. -/
def noPkg : List String → Bool := fun _ => false

/-- The deterministic filesystem matcher of the C2 scenario: the pattern
`*` matches the files `a` and `b`. -/
def exMatcher : String → List (List String) := fun pat =>
  if pat = "*" then [["a"], ["b"]] else []

/-- C2 counterexample: the same glob call on the same filesystem, under
two admissible map iteration orders, returns differently ordered lists —
the claimed order determinism fails. -/
theorem c2Counterexample :
    ValidReorder (fun l => l) ∧
    ValidReorder (fun l => l.reverse) ∧
    depth (globTree noPkg exMatcher ["*"] []) ≤ 2 ∧
    globResult noPkg exMatcher ["*"] [] (fun l => l) 2 ≠
      globResult noPkg exMatcher ["*"] [] (fun l => l.reverse) 2 :=
  ⟨fun l => List.Perm.refl l, fun l => l.reverse_perm, by decide, by decide⟩

/-- Witness for C2: the two orderings of the scenario produce permuted
results with the expected contents. -/
theorem c2Witness :
    globResult noPkg exMatcher ["*"] [] (fun l => l) 2 = ["a", "b"] ∧
    (globResult noPkg exMatcher ["*"] [] (fun l => l) 2).Perm
      (globResult noPkg exMatcher ["*"] [] (fun l => l.reverse) 2) :=
  ⟨by decide,
    c2GlobOrderIndependentSet noPkg exMatcher ["*"] [] (fun l => l) (fun l => l.reverse) 2 2
      (fun l => List.Perm.refl l) (fun l => l.reverse_perm) (by decide) (by decide)⟩
